import Mathlib

/-!
# Verification of the `rag-ingest` incremental ingestion pipeline

A shallow embedding of the pipeline in `src/` (chunking, hashing and stable
ids, canonical JSON serialization, state tracking, embedding retry, and the
delete-then-upsert store engine of `main.py`), together with theorems
settling the specification claims.

Conventions:
* Python `str` is modelled as `String` / `List Char`; Python `int` as `Nat`
  or `Int`; machine words of the hash as `Nat` reduced `% 2^32`.
* Python loops are modelled with an explicit fuel argument so that every
  definition is executable by kernel reduction.  The fuel chosen by the
  top-level entry points is proved sufficient (the loop stabilizes), which is
  the termination content of the source loops.
* File system reads, the network, and the clock appear as explicit inputs.
-/

namespace Rag

/-! ## Python string helpers (`str.strip`) -/

/-- The characters Python `str.strip()` removes (`str.isspace()`): the ASCII
whitespace `\t \n \v \f \r` and space, the file/group/record/unit separators
`\x1c`-`\x1f`, next line `\x85`, no-break space `\xa0`, Ogham space mark
U+1680, the U+2000-U+200A spaces, line separator U+2028, paragraph separator
U+2029, narrow no-break space U+202F, medium mathematical space U+205F, and
ideographic space U+3000. -/
def isPySpace (c : Char) : Bool :=
  let n := c.toNat
  (9 ≤ n && n ≤ 13) || (28 ≤ n && n ≤ 32) || n == 133 || n == 160 ||
    n == 5760 || (8192 ≤ n && n ≤ 8202) || n == 8232 || n == 8233 ||
    n == 8239 || n == 8287 || n == 12288

/-- Python `s.strip()`: drop leading and trailing whitespace. -/
def pyStrip (s : List Char) : List Char :=
  ((s.dropWhile isPySpace).reverse.dropWhile isPySpace).reverse

theorem dropWhile_eq_self_of_false {p : Char → Bool} :
    ∀ s : List Char, (∀ c ∈ s, p c = false) → List.dropWhile p s = s := by
  intro s h
  cases s with
  | nil => rfl
  | cons a t =>
    have := h a (by simp)
    simp [List.dropWhile, this]

theorem pyStrip_of_no_space (s : List Char) (h : ∀ c ∈ s, isPySpace c = false) :
    pyStrip s = s := by
  unfold pyStrip
  rw [dropWhile_eq_self_of_false s h,
    dropWhile_eq_self_of_false s.reverse (fun c hc => h c (List.mem_reverse.mp hc)),
    List.reverse_reverse]

/-! ## `src/chunk.py` — sliding-window chunking

Both `chunk_text_chars` and `chunk_text_tokens` run the same loop
```
step = max(1, size - overlap)
for start in range(0, len(xs), step):
    end = min(len(xs), start + size)
    chunk = emit(xs[start:end]).strip()
    if chunk: chunks.append(chunk)
    if end >= len(xs): break
```
`slidingChunks` is that loop; for the char chunker `emit` is the slice
itself, for the token chunker it is the tokenizer's `decode`.  `fuel` bounds
the number of iterations; `xs.length` is enough (proved below). -/

def slidingChunks {α : Type} (xs : List α) (size step : Nat)
    (emit : List α → List Char) : Nat → Nat → List (List Char)
  | 0, _ => []
  | fuel + 1, start =>
    if start < xs.length then
      let chunk := pyStrip (emit ((xs.drop start).take size))
      let here := if chunk.isEmpty then [] else [chunk]
      if xs.length ≤ start + size then
        here
      else
        here ++ slidingChunks xs size step emit fuel (start + step)
    else []

/-- The function `chunk_text_chars(text, chunk_chars, overlap_chars)` from `src/chunk.py`. -/
def chunk_text_chars (text : List Char) (chunk_chars overlap_chars : Nat) :
    List (List Char) :=
  if text.isEmpty then []
  else slidingChunks text chunk_chars (max 1 (chunk_chars - overlap_chars))
    (fun w => w) text.length 0

/-- The function `chunk_text_tokens(text, chunk_tokens, overlap_tokens, model)` from
`src/chunk.py`, on its tokenized path: `toks = enc.encode(text)` is passed in
as a token list and `dec` is `enc.decode` (the tokenizer is an external
library).  The `tiktoken is None` fallback to `chunk_text_chars` is the other
function. -/
def chunk_text_tokens (toks : List Nat) (dec : List Nat → List Char)
    (chunk_tokens overlap_tokens : Nat) : List (List Char) :=
  if toks.isEmpty then []
  else slidingChunks toks chunk_tokens (max 1 (chunk_tokens - overlap_tokens))
    (fun w => dec w) toks.length 0

/-- The loop's result does not depend on the fuel once the fuel covers the
remaining positions: with stride at least 1 the loop exits within
`xs.length - start` iterations. -/
theorem slidingChunks_fuel_stable {α : Type} (xs : List α) (size step : Nat)
    (emit : List α → List Char) (hstep : 1 ≤ step) :
    ∀ fuel₁ fuel₂ start, xs.length - start ≤ fuel₁ → xs.length - start ≤ fuel₂ →
      slidingChunks xs size step emit fuel₁ start =
        slidingChunks xs size step emit fuel₂ start := by
  intro fuel₁
  induction fuel₁ with
  | zero =>
    intro fuel₂ start h₁ h₂
    have hs : ¬ start < xs.length := by omega
    cases fuel₂ with
    | zero => rfl
    | succ n => simp [slidingChunks, hs]
  | succ n ih =>
    intro fuel₂ start h₁ h₂
    cases fuel₂ with
    | zero =>
      have hs : ¬ start < xs.length := by omega
      simp [slidingChunks, hs]
    | succ m =>
      simp only [slidingChunks]
      by_cases hs : start < xs.length
      · simp only [hs, if_true]
        by_cases hend : xs.length ≤ start + size
        · simp [hend]
        · simp only [hend, if_false]
          have := ih m (start + step) (by omega) (by omega)
          rw [this]
      · simp [hs]

/-! ## `src/utils.py` — hashing and stable ids

`sha256_text` is `hashlib.sha256(s.encode("utf-8")).hexdigest()`: a full
executable SHA-256 (FIPS 180-4) over `Nat` words reduced `% 2^32`, checked
below against the standard test vectors. -/

/-- Right rotation of a 32-bit word (values kept below `2^32`). -/
def rotr (k x : Nat) : Nat := x % 2 ^ k * 2 ^ (32 - k) + x / 2 ^ k

/-- Logical right shift. -/
def shr (k x : Nat) : Nat := x / 2 ^ k

def ch (e f g : Nat) : Nat := (e &&& f) ^^^ ((e ^^^ 4294967295) &&& g)

def maj (a b c : Nat) : Nat := (a &&& b) ^^^ (a &&& c) ^^^ (b &&& c)

def bigSigma0 (a : Nat) : Nat := rotr 2 a ^^^ rotr 13 a ^^^ rotr 22 a

def bigSigma1 (e : Nat) : Nat := rotr 6 e ^^^ rotr 11 e ^^^ rotr 25 e

def smallSigma0 (x : Nat) : Nat := rotr 7 x ^^^ rotr 18 x ^^^ shr 3 x

def smallSigma1 (x : Nat) : Nat := rotr 17 x ^^^ rotr 19 x ^^^ shr 10 x

/-- The SHA-256 round constants. -/
def shaK : List Nat :=
  [1116352408, 1899447441, 3049323471, 3921009573,
   961987163, 1508970993, 2453635748, 2870763221,
   3624381080, 310598401, 607225278, 1426881987,
   1925078388, 2162078206, 2614888103, 3248222580,
   3835390401, 4022224774, 264347078, 604807628,
   770255983, 1249150122, 1555081692, 1996064986,
   2554220882, 2821834349, 2952996808, 3210313671,
   3336571891, 3584528711, 113926993, 338241895,
   666307205, 773529912, 1294757372, 1396182291,
   1695183700, 1986661051, 2177026350, 2456956037,
   2730485921, 2820302411, 3259730800, 3345764771,
   3516065817, 3600352804, 4094571909, 275423344,
   430227734, 506948616, 659060556, 883997877,
   958139571, 1322822218, 1537002063, 1747873779,
   1955562222, 2024104815, 2227730452, 2361852424,
   2428436474, 2756734187, 3204031479, 3329325298]

/-- The eight working variables (a, b, c, d, e, f, g, h). -/
abbrev St8 := Nat × Nat × Nat × Nat × Nat × Nat × Nat × Nat

/-- Initial hash value H⁽⁰⁾. -/
def shaInit : St8 :=
  (1779033703, 3144134277, 1013904242, 2773480762,
   1359893119, 2600822924, 528734635, 1541459225)

def shaRound (st : St8) (kw : Nat × Nat) : St8 :=
  let (a, b, c, d, e, f, g, h) := st
  let t1 := (h + bigSigma1 e + ch e f g + kw.1 + kw.2) % 2 ^ 32
  let t2 := (bigSigma0 a + maj a b c) % 2 ^ 32
  ((t1 + t2) % 2 ^ 32, a, b, c, (d + t1) % 2 ^ 32, e, f, g)

/-- Message-schedule extension; `acc` holds the words produced so far, most
recent first, so `W[t-2]` is `acc.getD 1 0` and `W[t-16]` is `acc.getD 15 0`. -/
def extendW (acc : List Nat) : Nat → List Nat
  | 0 => acc
  | n + 1 =>
      extendW (((smallSigma1 (acc.getD 1 0) + acc.getD 6 0 +
        smallSigma0 (acc.getD 14 0) + acc.getD 15 0) % 2 ^ 32) :: acc) n

/-- The 64-entry message schedule of a 16-word block. -/
def schedule (block : List Nat) : List Nat := (extendW block.reverse 48).reverse

def st8ToList (st : St8) : List Nat :=
  let (a, b, c, d, e, f, g, h) := st
  [a, b, c, d, e, f, g, h]

def compressBlock (st : St8) (block : List Nat) : St8 :=
  let t := (shaK.zip (schedule block)).foldl shaRound st
  let (a, b, c, d, e, f, g, h) := st
  let (a', b', c', d', e', f', g', h') := t
  ((a + a') % 2 ^ 32, (b + b') % 2 ^ 32, (c + c') % 2 ^ 32, (d + d') % 2 ^ 32,
   (e + e') % 2 ^ 32, (f + f') % 2 ^ 32, (g + g') % 2 ^ 32, (h + h') % 2 ^ 32)

/-- The bit length of the message as eight big-endian bytes. -/
def beBytes8 (n : Nat) : List Nat :=
  [n / 2 ^ 56 % 256, n / 2 ^ 48 % 256, n / 2 ^ 40 % 256, n / 2 ^ 32 % 256,
   n / 2 ^ 24 % 256, n / 2 ^ 16 % 256, n / 2 ^ 8 % 256, n % 256]

/-- SHA-256 padding: a `0x80` byte, zeros to 56 mod 64, then the bit length. -/
def padBytes (msg : List Nat) : List Nat :=
  msg ++ 128 :: (List.replicate ((64 - (msg.length + 9) % 64) % 64) 0 ++
    beBytes8 (8 * msg.length))

/-- Bytes to big-endian 32-bit words. -/
def toWords : List Nat → List Nat
  | b0 :: b1 :: b2 :: b3 :: rest =>
      (b0 * 2 ^ 24 + b1 * 2 ^ 16 + b2 * 2 ^ 8 + b3) :: toWords rest
  | _ => []

/-- Words to 16-word blocks (the fuel is an iteration bound; the word count
is enough). -/
def toBlocks : Nat → List Nat → List (List Nat)
  | 0, _ => []
  | _ + 1, [] => []
  | fuel + 1, ws => ws.take 16 :: toBlocks fuel (ws.drop 16)

/-- The digest of a byte message, as eight 32-bit words. -/
def sha256Words (msg : List Nat) : List Nat :=
  let ws := toWords (padBytes msg)
  st8ToList ((toBlocks ws.length ws).foldl compressBlock shaInit)

def hexChars : List Char := "0123456789abcdef".data

def hexDigit (n : Nat) : Char := hexChars.getD (n % 16) '0'

/-- A 32-bit word as eight lowercase hex characters. -/
def wordHexChars (w : Nat) : List Char :=
  [hexDigit (w / 2 ^ 28), hexDigit (w / 2 ^ 24), hexDigit (w / 2 ^ 20),
   hexDigit (w / 2 ^ 16), hexDigit (w / 2 ^ 12), hexDigit (w / 2 ^ 8),
   hexDigit (w / 2 ^ 4), hexDigit w]

/-- UTF-8 encoding of one scalar value (`str.encode("utf-8")`). -/
def utf8Char (c : Char) : List Nat :=
  let n := c.toNat
  if n < 128 then [n]
  else if n < 2048 then [192 + n / 64, 128 + n % 64]
  else if n < 65536 then [224 + n / 4096, 128 + n / 64 % 64, 128 + n % 64]
  else [240 + n / 262144, 128 + n / 4096 % 64, 128 + n / 64 % 64, 128 + n % 64]

def utf8Bytes (s : String) : List Nat := s.data.flatMap utf8Char

/-- The function `sha256_text(s)` from `src/utils.py`:
`hashlib.sha256(s.encode("utf-8")).hexdigest()`. -/
def sha256_text (s : String) : String :=
  ⟨(sha256Words (utf8Bytes s)).flatMap wordHexChars⟩

/-- The f-string `f"{source_id}::{chunk_id}::{content_hash}"` built by
`compute_stable_id`. -/
def stableCombined (source_id chunk_id content_hash : String) : String :=
  source_id ++ "::" ++ chunk_id ++ "::" ++ content_hash

/-- The function `compute_stable_id(source_id, chunk_id, content_hash)` from `src/utils.py`. -/
def compute_stable_id (source_id chunk_id content_hash : String) : String :=
  sha256_text (stableCombined source_id chunk_id content_hash)

/-- FIPS 180-4 test vector: the empty message. -/
theorem sha256_vector_empty :
    sha256_text "" = "e3b0c44298fc1c149afbf4c8996fb92427ae41e4649b934ca495991b7852b855" := by
  decide

/-- FIPS 180-4 test vector: "abc". -/
theorem sha256_vector_abc :
    sha256_text "abc" = "ba7816bf8f01cfea414140de5dae2223b00361a396177a9cb410ff61f20015ad" := by
  decide

/-! ## `stable_json_text` — canonical JSON serialization

`stable_json_text(obj)` is `json.dumps(obj, ensure_ascii=False,
sort_keys=True, indent=2)`.  JSON values are the `Json` type below
(numbers restricted to the integers this repository's data uses;
floating-point formatting is orthogonal to key ordering).  `sort_keys=True`
is modelled by canonicalizing (recursively key-sorting) the value before
rendering, which is what `json.dumps` does level by level while emitting. -/

inductive Json where
  | null : Json
  | jbool : Bool → Json
  | jnum : Int → Json
  | jstr : String → Json
  | jarr : List Json → Json
  | jobj : List (String × Json) → Json

/-- Comparison of object entries by key, the order `sort_keys=True` uses. -/
def keyLE (a b : String × Json) : Prop := a.1 ≤ b.1

instance : DecidableRel keyLE := fun a b => inferInstanceAs (Decidable (a.1 ≤ b.1))

instance : IsTotal (String × Json) keyLE := ⟨fun a b => le_total a.1 b.1⟩

instance : IsTrans (String × Json) keyLE := ⟨fun _ _ _ h₁ h₂ => le_trans h₁ h₂⟩

def sortByKey (l : List (String × Json)) : List (String × Json) :=
  List.insertionSort keyLE l

theorem sortByKey_cons (p : String × Json) (l : List (String × Json)) :
    sortByKey (p :: l) = List.orderedInsert keyLE p (sortByKey l) := rfl

mutual

/-- Recursively sort every object's entries by key. -/
def canon : Json → Json
  | .null => .null
  | .jbool b => .jbool b
  | .jnum n => .jnum n
  | .jstr s => .jstr s
  | .jarr xs => .jarr (canonList xs)
  | .jobj l => .jobj (sortByKey (canonEntries l))

def canonList : List Json → List Json
  | [] => []
  | x :: xs => canon x :: canonList xs

def canonEntries : List (String × Json) → List (String × Json)
  | [] => []
  | (k, v) :: l => (k, canon v) :: canonEntries l

end

def indentStr (n : Nat) : String := ⟨List.replicate (2 * n) ' '⟩

/-- JSON string escaping with `ensure_ascii=False`: quote, backslash and
control characters are escaped, everything else is kept as is. -/
def quoteChar (c : Char) : List Char :=
  if c = '"' then ['\\', '"']
  else if c = '\\' then ['\\', '\\']
  else if c = '\n' then ['\\', 'n']
  else if c = '\t' then ['\\', 't']
  else if c = '\x0d' then ['\\', 'r']
  else if c = '\x08' then ['\\', 'b']
  else if c = '\x0c' then ['\\', 'f']
  else if c.toNat < 32 then
    ['\\', 'u', '0', '0', hexDigit (c.toNat / 16), hexDigit c.toNat]
  else [c]

def jsonQuote (s : String) : String := ⟨'"' :: (s.data.flatMap quoteChar ++ ['"'])⟩

mutual

/-- Render with `indent=2` at nesting level `ind`, entries assumed already in
emission order. -/
def emitJson : Nat → Json → String
  | _, .null => "null"
  | _, .jbool true => "true"
  | _, .jbool false => "false"
  | _, .jnum n => toString n
  | _, .jstr s => jsonQuote s
  | _, .jarr [] => "[]"
  | ind, .jarr (x :: xs) =>
      "[\n" ++ String.intercalate ",\n" (emitItems (ind + 1) (x :: xs)) ++
        "\n" ++ indentStr ind ++ "]"
  | _, .jobj [] => "\x7b\x7d"
  | ind, .jobj (e :: es) =>
      "\x7b\n" ++ String.intercalate ",\n" (emitEntries (ind + 1) (e :: es)) ++
        "\n" ++ indentStr ind ++ "\x7d"

def emitItems : Nat → List Json → List String
  | _, [] => []
  | ind, x :: xs => (indentStr ind ++ emitJson ind x) :: emitItems ind xs

def emitEntries : Nat → List (String × Json) → List String
  | _, [] => []
  | ind, (k, v) :: es =>
      (indentStr ind ++ jsonQuote k ++ ": " ++ emitJson ind v) :: emitEntries ind es

end

/-- The function `stable_json_text(obj)` from `src/utils.py`. -/
def stable_json_text (j : Json) : String := emitJson 0 (canon j)

/-- Every object in the value has pairwise-distinct keys — the invariant of
anything obtained from a Python `dict` (`json.load` output included). -/
inductive GoodKeys : Json → Prop where
  | null : GoodKeys .null
  | jbool (b : Bool) : GoodKeys (.jbool b)
  | jnum (n : Int) : GoodKeys (.jnum n)
  | jstr (s : String) : GoodKeys (.jstr s)
  | jarr (xs : List Json) : (∀ x ∈ xs, GoodKeys x) → GoodKeys (.jarr xs)
  | jobj (l : List (String × Json)) : (l.map Prod.fst).Nodup →
      (∀ p ∈ l, GoodKeys p.2) → GoodKeys (.jobj l)

/-- Structural equality up to object key order: the same logical JSON value
with each object's entries possibly permuted, recursively. -/
inductive JsonPerm : Json → Json → Prop where
  | null : JsonPerm .null .null
  | jbool (b : Bool) : JsonPerm (.jbool b) (.jbool b)
  | jnum (n : Int) : JsonPerm (.jnum n) (.jnum n)
  | jstr (s : String) : JsonPerm (.jstr s) (.jstr s)
  | arrNil : JsonPerm (.jarr []) (.jarr [])
  | arrCons {x y : Json} {xs ys : List Json} : JsonPerm x y →
      JsonPerm (.jarr xs) (.jarr ys) → JsonPerm (.jarr (x :: xs)) (.jarr (y :: ys))
  | objNil : JsonPerm (.jobj []) (.jobj [])
  | objCons (k : String) {v w : Json} {l₁ l₂ : List (String × Json)} :
      JsonPerm v w → JsonPerm (.jobj l₁) (.jobj l₂) →
      JsonPerm (.jobj ((k, v) :: l₁)) (.jobj ((k, w) :: l₂))
  | objSwap (e₁ e₂ : String × Json) (l : List (String × Json)) :
      JsonPerm (.jobj (e₁ :: e₂ :: l)) (.jobj (e₂ :: e₁ :: l))
  | objTrans {l₁ l₂ l₃ : List (String × Json)} :
      JsonPerm (.jobj l₁) (.jobj l₂) → JsonPerm (.jobj l₂) (.jobj l₃) →
      JsonPerm (.jobj l₁) (.jobj l₃)

theorem goodKeys_arr_iff {xs : List Json} :
    GoodKeys (.jarr xs) ↔ ∀ x ∈ xs, GoodKeys x := by
  constructor
  · intro h; cases h with | jarr _ h => exact h
  · exact GoodKeys.jarr xs

theorem goodKeys_obj_iff {l : List (String × Json)} :
    GoodKeys (.jobj l) ↔ (l.map Prod.fst).Nodup ∧ ∀ p ∈ l, GoodKeys p.2 := by
  constructor
  · intro h; cases h with | jobj _ h₁ h₂ => exact ⟨h₁, h₂⟩
  · intro ⟨h₁, h₂⟩; exact GoodKeys.jobj l h₁ h₂

/-- A `JsonPerm` permutes each object's key list. -/
theorem jsonPerm_keys_perm {a b : Json} (h : JsonPerm a b) :
    ∀ l₁ l₂, a = .jobj l₁ → b = .jobj l₂ →
      (l₁.map Prod.fst).Perm (l₂.map Prod.fst) := by
  induction h with
  | objNil =>
    intro l₁ l₂ h₁ h₂
    cases h₁; cases h₂; exact List.Perm.refl _
  | objCons k hv hl ihv ihl =>
    intro l₁ l₂ h₁ h₂
    cases h₁; cases h₂
    exact List.Perm.cons _ (ihl _ _ rfl rfl)
  | objSwap e₁ e₂ l =>
    intro l₁ l₂ h₁ h₂
    cases h₁; cases h₂
    simp only [List.map_cons]
    exact List.Perm.swap _ _ _
  | objTrans hab hbc ih₁ ih₂ =>
    intro l₁ l₂ h₁ h₂
    exact (ih₁ _ _ h₁ rfl).trans (ih₂ _ _ rfl h₂)
  | null => intro l₁ l₂ h₁ h₂; cases h₁
  | jbool b => intro l₁ l₂ h₁ h₂; cases h₁
  | jnum n => intro l₁ l₂ h₁ h₂; cases h₁
  | jstr s => intro l₁ l₂ h₁ h₂; cases h₁
  | arrNil => intro l₁ l₂ h₁ h₂; cases h₁
  | arrCons hx hxs ih₁ ih₂ => intro l₁ l₂ h₁ h₂; cases h₁

/-- A `JsonPerm` preserves key distinctness. -/
theorem goodKeys_of_jsonPerm {a b : Json} (h : JsonPerm a b) (hg : GoodKeys a) :
    GoodKeys b := by
  induction h with
  | null => exact hg
  | jbool b => exact hg
  | jnum n => exact hg
  | jstr s => exact hg
  | arrNil => exact hg
  | arrCons hx hxs ih₁ ih₂ =>
    rw [goodKeys_arr_iff] at hg ⊢
    have hy := ih₁ (hg _ (by simp))
    have hys := ih₂ (goodKeys_arr_iff.mpr fun z hz => hg _ (by simp [hz]))
    rw [goodKeys_arr_iff] at hys
    intro z hz
    rcases List.mem_cons.mp hz with h | h
    · exact h ▸ hy
    · exact hys _ h
  | objNil => exact hg
  | objCons k hv hl ihv ihl =>
    rw [goodKeys_obj_iff] at hg ⊢
    obtain ⟨hnd, hvals⟩ := hg
    have hperm := jsonPerm_keys_perm hl _ _ rfl rfl
    simp only [List.map_cons, List.nodup_cons] at hnd ⊢
    have hl₂ := ihl (goodKeys_obj_iff.mpr ⟨hnd.2, fun p hp => hvals _ (by simp [hp])⟩)
    rw [goodKeys_obj_iff] at hl₂
    refine ⟨⟨fun hk => hnd.1 (hperm.symm.mem_iff.mp hk), hl₂.1⟩, ?_⟩
    intro p hp
    rcases List.mem_cons.mp hp with h | h
    · exact h ▸ ihv (hvals _ (List.mem_cons_self _ _))
    · exact hl₂.2 _ h
  | objSwap e₁ e₂ l =>
    rw [goodKeys_obj_iff] at hg ⊢
    obtain ⟨hnd, hvals⟩ := hg
    simp only [List.map_cons, List.nodup_cons] at hnd ⊢
    refine ⟨⟨?_, ?_, hnd.2.2⟩, ?_⟩
    · intro hk
      rcases List.mem_cons.mp hk with h | h
      · exact hnd.1 (by simp [h.symm])
      · exact hnd.2.1 h
    · intro hk
      exact hnd.1 (by simp [hk])
    · intro p hp
      apply hvals
      rcases List.mem_cons.mp hp with h | h
      · simp [h]
      · rcases List.mem_cons.mp h with h' | h' <;> simp [h']
  | objTrans hab hbc ih₁ ih₂ => exact ih₂ (ih₁ hg)

/-- Two permuted entry lists with distinct keys, both key-sorted, are equal:
sortedness pins the key order, distinctness pins each entry. -/
theorem sorted_perm_nodupKeys_eq :
    ∀ (l₁ l₂ : List (String × Json)), l₁.Perm l₂ → (l₁.map Prod.fst).Nodup →
      l₁.Sorted keyLE → l₂.Sorted keyLE → l₁ = l₂ := by
  intro l₁
  induction l₁ with
  | nil =>
    intro l₂ hp _ _ _
    exact (hp.symm.eq_nil).symm ▸ rfl
  | cons a t ih =>
    intro l₂ hp hnd hs₁ hs₂
    cases l₂ with
    | nil => exact absurd hp.eq_nil (by simp)
    | cons b t₂ =>
      by_cases hab : a = b
      · subst hab
        have htp := hp.cons_inv
        have := ih t₂ htp (by simpa using (List.nodup_cons.mp (by simpa using hnd)).2)
          (List.sorted_cons.mp hs₁).2 (List.sorted_cons.mp hs₂).2
        rw [this]
      · exfalso
        have ha₂ : a ∈ t₂ := by
          have := hp.mem_iff.mp (List.mem_cons_self a t)
          rcases List.mem_cons.mp this with h | h
          · exact absurd h hab
          · exact h
        have hb₁ : b ∈ t := by
          have := hp.symm.mem_iff.mp (List.mem_cons_self b t₂)
          rcases List.mem_cons.mp this with h | h
          · exact absurd h.symm hab
          · exact h
        have hba : keyLE b a := (List.sorted_cons.mp hs₂).1 _ ha₂
        have hab' : keyLE a b := (List.sorted_cons.mp hs₁).1 _ hb₁
        have hkey : a.1 = b.1 := le_antisymm hab' hba
        have : a.1 ∈ t.map Prod.fst := hkey ▸ List.mem_map_of_mem Prod.fst hb₁
        simp only [List.map_cons, List.nodup_cons] at hnd
        exact hnd.1 this

theorem canonEntries_keys :
    ∀ l : List (String × Json), (canonEntries l).map Prod.fst = l.map Prod.fst := by
  intro l
  induction l with
  | nil => simp [canonEntries]
  | cons p t ih =>
    obtain ⟨k, v⟩ := p
    simp [canonEntries, ih]

/-- The heart of claim C6: canonicalization is invariant under key
reordering (keys distinct). -/
theorem canon_eq_of_jsonPerm {a b : Json} (h : JsonPerm a b) (hg : GoodKeys a) :
    canon a = canon b := by
  induction h with
  | null => rfl
  | jbool b => rfl
  | jnum n => rfl
  | jstr s => rfl
  | arrNil => rfl
  | arrCons hx hxs ih₁ ih₂ =>
    rw [goodKeys_arr_iff] at hg
    have h1 := ih₁ (hg _ (by simp))
    have h2 := ih₂ (goodKeys_arr_iff.mpr fun z hz => hg _ (by simp [hz]))
    simp only [canon, canonList] at h2 ⊢
    rw [h1, (Json.jarr.injEq _ _).mp h2]
  | objNil => rfl
  | objCons k hv hl ihv ihl =>
    rw [goodKeys_obj_iff] at hg
    obtain ⟨hnd, hvals⟩ := hg
    simp only [List.map_cons, List.nodup_cons] at hnd
    have h1 := ihv (hvals _ (List.mem_cons_self _ _))
    have h2 := ihl (goodKeys_obj_iff.mpr ⟨hnd.2, fun p hp => hvals _ (by simp [hp])⟩)
    simp only [canon, canonEntries] at h2 ⊢
    rw [h1]
    simp only [sortByKey_cons]
    rw [(Json.jobj.injEq _ _).mp h2]
  | objSwap e₁ e₂ l =>
    rw [goodKeys_obj_iff] at hg
    obtain ⟨hnd, _⟩ := hg
    obtain ⟨k₁, v₁⟩ := e₁
    obtain ⟨k₂, v₂⟩ := e₂
    simp only [canon, canonEntries]
    congr 1
    apply sorted_perm_nodupKeys_eq
    · exact ((List.perm_insertionSort keyLE _).trans (List.Perm.swap _ _ _)).trans
        (List.perm_insertionSort keyLE _).symm
    · have : List.Perm
          (List.map Prod.fst (sortByKey ((k₁, canon v₁) :: (k₂, canon v₂) :: canonEntries l)))
          (List.map Prod.fst ((k₁, canon v₁) :: (k₂, canon v₂) :: canonEntries l)) :=
        (List.perm_insertionSort keyLE _).map _
      refine this.symm.nodup ?_
      simp only [List.map_cons, canonEntries_keys]
      simpa using hnd
    · exact List.sorted_insertionSort keyLE _
    · exact List.sorted_insertionSort keyLE _
  | objTrans hab hbc ih₁ ih₂ =>
    exact (ih₁ hg).trans (ih₂ (goodKeys_of_jsonPerm hab hg))

/-! ## `src/state.py` — per-file state tracking

The state is the JSON object of `state.json`: a Python dict from file path
to a record dict, modelled as an association list with distinct keys and
dict-assignment (`state[filepath] = {...}`) as replace-in-place-or-append.
A loaded record's fields are `Option`s because `should_skip_file` reads them
with `dict.get`, which yields `None` for a missing key. -/

structure FileRecord where
  content_hash : Option String
  mtime : Option String
deriving DecidableEq

abbrev StateMap := List (String × FileRecord)

/-- Python dict assignment `st[key] = v`: replace the entry in place if the
key exists (keys are unique in a dict), else append at the end. -/
def dictInsert (key : String) (v : FileRecord) : StateMap → StateMap
  | [] => [(key, v)]
  | p :: t => if p.1 == key then (key, v) :: t else p :: dictInsert key v t

/-- What reading `state.json` can produce: no file, an unreadable file, a
file `json.load` rejects, or a parsed state object. -/
inductive StateFile where
  | missing : StateFile
  | unreadable : StateFile
  | malformed : StateFile
  | parsed : StateMap → StateFile

/-- The function `load_state()` from `src/state.py`: `{}` unless the file exists and
parses (`if not os.path.exists: return {}`; `except Exception: return {}`).
A total function: no outcome raises. -/
def load_state : StateFile → StateMap
  | .missing => []
  | .unreadable => []
  | .malformed => []
  | .parsed m => m

/-- The function `get_file_state(filepath, state)`: `state.get(filepath)`. -/
def get_file_state (filepath : String) (state : StateMap) : Option FileRecord :=
  state.lookup filepath

/-- The function `update_file_state(filepath, content_hash, mtime, state)`. -/
def update_file_state (filepath content_hash mtime : String) (state : StateMap) :
    StateMap :=
  dictInsert filepath ⟨some content_hash, some mtime⟩ state

/-- The function `should_skip_file(filepath, current_hash, current_mtime, state)`. -/
def should_skip_file (filepath current_hash current_mtime : String)
    (state : StateMap) : Bool :=
  match get_file_state filepath state with
  | none => false
  | some r => r.content_hash == some current_hash && r.mtime == some current_mtime

theorem lookup_dictInsert_self (key : String) (v : FileRecord) :
    ∀ st : StateMap, (dictInsert key v st).lookup key = some v := by
  intro st
  induction st with
  | nil => simp [dictInsert, List.lookup]
  | cons p t ih =>
    by_cases hp : p.1 = key
    · have hb : (p.1 == key) = true := by simpa using hp
      simp [dictInsert, hb, List.lookup]
    · have hb : (p.1 == key) = false := by simpa using hp
      have hkp : (key == p.1) = false := by simpa using fun h' => hp h'.symm
      simp [dictInsert, hb, List.lookup, hkp, ih]

theorem lookup_dictInsert_other (key q : String) (v : FileRecord) (hq : q ≠ key) :
    ∀ st : StateMap, (dictInsert key v st).lookup q = st.lookup q := by
  intro st
  induction st with
  | nil =>
    have : (q == key) = false := by simpa using hq
    simp [dictInsert, List.lookup, this]
  | cons p t ih =>
    by_cases hp : p.1 = key
    · have hb : (p.1 == key) = true := by simpa using hp
      have hqp : (q == p.1) = false := by simpa using fun h' => hq (hp ▸ h')
      have hqk : (q == key) = false := by simpa using hq
      simp [dictInsert, hb, List.lookup, hqp, hqk]
    · have hb : (p.1 == key) = false := by simpa using hp
      by_cases hqp : q = p.1
      · simp [dictInsert, hb, List.lookup, hqp]
      · have hq' : (q == p.1) = false := by simpa using hqp
        simp [dictInsert, hb, List.lookup, hq', ih]

/-! ## `src/db.py` — the document store

A MongoDB collection is a list of documents with pairwise-distinct `_id`s
(the primary key); the schema is the one `build_docs_for_file` constructs.
Embedding vectors are opaque here (`List Rat` standing for the provider's
float list: no arithmetic is ever performed on them). -/

structure SourceInfo where
  source_id : String
  path : String
  ftype : String
  mtime : String
deriving DecidableEq

/-- The `metadata` subdocument (`section` is a Lean keyword, hence `sect`). -/
structure DocMeta where
  title : String
  sect : String
  tags : List String
  lang : String
deriving DecidableEq

structure Doc where
  _id : String
  chunk_id : String
  source : SourceInfo
  text : String
  metadata : DocMeta
  embedding : List Rat
  embedding_model : String
  dims : Nat
  created_at : String
  updated_at : String
deriving DecidableEq

/-- One `UpdateOne({"_id": d["_id"]}, {"$set": d}, upsert=True)`: replace the
document carrying this `_id` (`_id` is the unique primary key) in place with
`d` — `$set` with the full document rewrites every stored field — or insert
when absent. -/
def upsertOne : List Doc → Doc → List Doc
  | [], d => [d]
  | e :: t, d => if e._id == d._id then d :: t else e :: upsertOne t d

/-- The function `upsert_chunks(col, docs)` from `src/db.py`: the unordered bulk write of
one upsert per document. -/
def upsert_chunks (col : List Doc) (docs : List Doc) : List Doc :=
  docs.foldl upsertOne col

/-- Modelled from the spec: `delete_chunks_by_source` is imported by
`src/main.py` from `db` but is absent from `src/db.py`.  Spec §4.6:
"`deleteBySource(sourceId) -> count`... delete all previously stored
documents whose `source.source_id` matches". -/
def delete_chunks_by_source (col : List Doc) (source_id : String) :
    List Doc × Nat :=
  (col.filter (fun d => d.source.source_id != source_id),
   col.countP (fun d => d.source.source_id == source_id))

/-! ## `src/embed.py` — embedding with retry/backoff -/

/-- What one `client.embeddings.create` call does: succeed, raise
`RateLimitError`, raise `APIError`, or raise something else. -/
inductive EmbedCall where
  | ok : List (List Rat) → EmbedCall
  | rateLimit : String → EmbedCall
  | apiError : String → EmbedCall
  | other : String → EmbedCall

inductive EmbedErr where
  | rateLimit : String → EmbedErr
  | apiError : String → EmbedErr
  | other : String → EmbedErr
  | runtime : String → EmbedErr
deriving DecidableEq

/-- Result of `embed_texts_openai`: the returned value or propagated error,
the sequence of `time.sleep` delays (seconds), and how many provider calls
were made. -/
structure EmbedResult where
  outcome : Except EmbedErr (List (List Rat))
  delays : List Rat
  calls : Nat

/-- The `for attempt in range(max_retries)` loop of `embed_texts_openai`:
`rem` counts the remaining iterations, so `attempt == max_retries - 1`
(the final-attempt re-raise test) is `rem = 0`; a caught transient error
sleeps `base_delay * (2 ** attempt)` and continues; any other exception is
re-raised at once. -/
def embedAttempts (provider : Nat → EmbedCall) (base_delay : Rat) :
    Nat → Nat → EmbedResult
  | 0, _ => ⟨.error (.runtime "Failed to embed texts after retries"), [], 0⟩
  | rem + 1, attempt =>
    match provider attempt with
    | .ok v => ⟨.ok v, [], 1⟩
    | .rateLimit m =>
      if rem = 0 then ⟨.error (.rateLimit m), [], 1⟩
      else
        let r := embedAttempts provider base_delay rem (attempt + 1)
        ⟨r.outcome, base_delay * 2 ^ attempt :: r.delays, r.calls + 1⟩
    | .apiError m =>
      if rem = 0 then ⟨.error (.apiError m), [], 1⟩
      else
        let r := embedAttempts provider base_delay rem (attempt + 1)
        ⟨r.outcome, base_delay * 2 ^ attempt :: r.delays, r.calls + 1⟩
    | .other m => ⟨.error (.other m), [], 1⟩

/-- The function `embed_texts_openai(client, model, texts, max_retries, base_delay)` from
`src/embed.py`.  The provider (client, model and texts fixed) is the function
from attempt number to call outcome; delays are exact (`base * 2^k` is exact
float arithmetic, modelled in `Rat`). -/
def embed_texts_openai (provider : Nat → EmbedCall) (max_retries : Nat)
    (base_delay : Rat) : EmbedResult :=
  embedAttempts provider base_delay max_retries 0

/-! ## `src/main.py` — document construction and the ingest loop -/

/-- Python `os.path.basename` (the paths here use `/`). -/
def basename (s : String) : String :=
  ⟨(s.data.reverse.takeWhile (fun c => c ≠ '/')).reverse⟩

/-- Python `os.path.splitext(filename)[0]`: everything before the last dot (for the
ordinary names this pipeline sees; the hidden-file corner of `splitext` is
not modelled). -/
def splitextBase (s : String) : String :=
  if s.data.contains '.' then
    ⟨((s.data.reverse.dropWhile (fun c => c ≠ '.')).drop 1).reverse⟩
  else s

def strContains (hay needle : String) : Bool := decide (needle.data.IsInfix hay.data)

def strLower (s : String) : String := ⟨s.data.map Char.toLower⟩

/-- The tag rules of `build_docs_for_file` (substring tests on the lowercased
file name). -/
def docTags (filename : String) : List String :=
  let lower := strLower filename
  if strContains lower "profile" then ["profile", "resume", "candidate"]
  else if strContains lower "resume" then ["resume", "candidate"]
  else if strContains lower "qa" then ["qa", "questions"]
  else ["document"]

/-- Python `f"{i:04d}"`. -/
def pad4 (i : Nat) : String :=
  let s := toString i
  ⟨List.replicate (4 - s.length) '0' ++ s.data⟩

/-- The pure core of `build_docs_for_file(filepath, embed_client, settings)`
from `src/main.py`.  Its effectful collaborators enter as inputs: `chunks` is
`chunk_text_tokens` on the normalized text, `embeddings` the concatenation of
the batched `embed_texts_openai` results (same length as `chunks`),
`title_meta` the metadata title from `normalize_document`, `mtime` the
`get_file_mtime` value, `created_at` the `now_iso()` clock reading. -/
def build_docs_for_file (filepath file_type mtime : String)
    (title_meta : Option String) (embed_model : String)
    (chunks : List (List Char)) (embeddings : List (List Rat))
    (created_at : String) : List Doc :=
  let filename := basename filepath
  let source_id := filename
  if chunks.isEmpty then []
  else
    let dims := match embeddings with
      | [] => 1536
      | e :: _ => e.length
    let title := match title_meta with
      | some t => if t.isEmpty then splitextBase filename else t
      | none => splitextBase filename
    (chunks.zip embeddings).enum.map (fun p =>
      let i := p.1
      let chunk := p.2.1
      let emb := p.2.2
      let chunk_id := source_id ++ "::chunk_" ++ pad4 i
      let chunk_hash := sha256_text ⟨chunk⟩
      { _id := compute_stable_id source_id chunk_id chunk_hash
        chunk_id := chunk_id
        source := ⟨source_id, filepath, file_type, mtime⟩
        text := ⟨chunk⟩
        metadata := ⟨title, "chunk_" ++ toString i, docTags filename, "en"⟩
        embedding := emb
        embedding_model := embed_model
        dims := dims
        created_at := created_at
        updated_at := created_at })

/-- The per-file inputs and failure modes of one iteration of the
`for filepath in files` loop of `ingest_folder` (`skip_unchanged=True`).
The filesystem, the normalizer, the embedder and the store client can each
raise; their outcomes for this file are inputs:
* `skipInfo`: the (`sha256_text(normalize_document(..))`, `get_file_mtime`)
  pair of the pre-check, or the exception it raised; the post-upsert state
  refresh re-reads the same unchanged file, so it yields the same outcome;
* `build`: what `build_docs_for_file` returns or raises;
* `writeFails`: whether `delete_chunks_by_source`/`upsert_chunks` raises,
  and `storeOnFail` the store contents the failed (non-atomic) write leaves
  behind. -/
structure Job where
  path : String
  skipInfo : Except String (String × String)
  build : Except String (List Doc)
  writeFails : Bool
  storeOnFail : List Doc → List Doc

/-- The `try` body of the loop (after the skip check): build, and when the
docs list is nonempty delete-then-upsert by the first doc's
`source.source_id` and record the new file state.  Every raise lands in the
`except` arm, which keeps `col`/`state` untouched apart from the partial
write. -/
def processBody (col : List Doc) (state : StateMap) (j : Job) :
    List Doc × StateMap :=
  match j.build with
  | .error _ => (col, state)
  | .ok [] => (col, state)
  | .ok (d :: ds) =>
    if j.writeFails then (j.storeOnFail col, state)
    else
      let col2 := upsert_chunks (delete_chunks_by_source col d.source.source_id).1
        (d :: ds)
      match j.skipInfo with
      | .ok (h, m) => (col2, update_file_state j.path h m state)
      | .error _ => (col2, state)

/-- One full iteration: the `should_skip_file` pre-check (an exception there
only warns and falls through to processing), then the processing body. -/
def processFile (col : List Doc) (state : StateMap) (j : Job) :
    List Doc × StateMap :=
  match j.skipInfo with
  | .ok (h, m) =>
    if should_skip_file j.path h m state then (col, state)
    else processBody col state j
  | .error _ => processBody col state j

/-- The file loop of `ingest_folder` over the discovered, sorted file list;
discovery, client construction and the final `save_state` are IO around it. -/
def ingest_folder (jobs : List Job) (col : List Doc) (state : StateMap) :
    List Doc × StateMap :=
  jobs.foldl (fun acc j => processFile acc.1 acc.2 j) (col, state)

/-- A job whose processing (after any skip check) raises: the build step
raised, or it produced documents and the store write raised. -/
def Job.fails (j : Job) : Prop :=
  (∃ e, j.build = .error e) ∨
    (∃ d ds, j.build = .ok (d :: ds) ∧ j.writeFails = true)

/-! ## Counting documents of one source through delete-then-upsert -/

/-- The `source.source_id == s` filter. -/
def sidP (s : String) (d : Doc) : Bool := d.source.source_id == s

theorem mem_upsertOne (d : Doc) :
    ∀ col : List Doc, ∀ e ∈ upsertOne col d, e = d ∨ e ∈ col := by
  intro col
  induction col with
  | nil =>
    intro e he
    simp only [upsertOne, List.mem_singleton] at he
    exact Or.inl he
  | cons x t ih =>
    intro e he
    by_cases hx : x._id = d._id
    · have hb : (x._id == d._id) = true := by simpa using hx
      simp only [upsertOne, hb, if_true] at he
      rcases List.mem_cons.mp he with h | h
      · exact Or.inl h
      · exact Or.inr (List.mem_cons_of_mem _ h)
    · have hb : (x._id == d._id) = false := by simpa using hx
      simp only [upsertOne, hb, Bool.false_eq_true, if_false] at he
      rcases List.mem_cons.mp he with h | h
      · exact Or.inr (h ▸ List.mem_cons_self _ _)
      · rcases ih e h with h' | h'
        · exact Or.inl h'
        · exact Or.inr (List.mem_cons_of_mem _ h')

/-- Upserting a document of source `s` whose `_id` is carried by no stored
document of source `s` raises the source-`s` count by exactly one: it either
overwrites a document of another source or appends. -/
theorem countP_upsertOne (s : String) (d : Doc) (hd : sidP s d = true) :
    ∀ col : List Doc, (∀ e ∈ col, e._id = d._id → sidP s e = false) →
      (upsertOne col d).countP (sidP s) = col.countP (sidP s) + 1 := by
  intro col
  induction col with
  | nil => intro _; simp [upsertOne, List.countP_cons, hd]
  | cons x t ih =>
    intro hcol
    by_cases hx : x._id = d._id
    · have hb : (x._id == d._id) = true := by simpa using hx
      have hxs : sidP s x = false := hcol x (List.mem_cons_self _ _) hx
      simp only [upsertOne, hb, if_true]
      simp [List.countP_cons, hd, hxs]
    · have hb : (x._id == d._id) = false := by simpa using hx
      simp only [upsertOne, hb, Bool.false_eq_true, if_false]
      have := ih (fun e he hid => hcol e (List.mem_cons_of_mem _ he) hid)
      simp only [List.countP_cons, this]
      omega

/-- Bulk-upserting a batch of distinct-id documents, all of source `s`, into
a store whose source-`s` documents avoid every batch id, adds exactly the
batch size to the source-`s` count. -/
theorem countP_upsert_chunks (s : String) :
    ∀ (docs col : List Doc),
      (∀ d ∈ docs, sidP s d = true) →
      (docs.map (fun d => d._id)).Nodup →
      (∀ e ∈ col, sidP s e = true → e._id ∉ docs.map (fun d => d._id)) →
      (upsert_chunks col docs).countP (sidP s) =
        col.countP (sidP s) + docs.length := by
  intro docs
  induction docs with
  | nil => intro col _ _ _; rfl
  | cons d rest ih =>
    intro col hsid hnd hcol
    have hstep : upsert_chunks col (d :: rest) = upsert_chunks (upsertOne col d) rest := rfl
    rw [hstep]
    simp only [List.map_cons, List.nodup_cons] at hnd
    have h1 : (upsertOne col d).countP (sidP s) = col.countP (sidP s) + 1 := by
      apply countP_upsertOne s d (hsid d (List.mem_cons_self _ _))
      intro e he hid
      by_contra hse
      simp only [Bool.not_eq_false] at hse
      exact hcol e he hse (by simp [hid])
    have h2 := ih (upsertOne col d)
      (fun d' hd' => hsid d' (List.mem_cons_of_mem _ hd'))
      hnd.2
      (by
        intro e he hse
        rcases mem_upsertOne d col e he with h | h
        · exact h ▸ hnd.1
        · intro hmem
          exact hcol e h hse (List.mem_cons_of_mem _ hmem))
    rw [h2, h1]
    simp only [List.length_cons]
    omega

/-- After `delete_chunks_by_source`, no document of that source remains. -/
theorem countP_delete (col : List Doc) (s : String) :
    ((delete_chunks_by_source col s).1).countP (sidP s) = 0 := by
  rw [List.countP_eq_zero]
  intro d hd
  have := (List.mem_filter.mp hd).2
  simp only [bne_iff_ne, ne_eq] at this
  simp [sidP, this]

theorem not_mem_sid_delete (col : List Doc) (s : String) :
    ∀ e ∈ (delete_chunks_by_source col s).1, sidP s e = true → False := by
  intro e he hse
  have := (List.mem_filter.mp he).2
  simp only [bne_iff_ne, ne_eq] at this
  simp [sidP, this] at hse

/-! ## Behaviour of one loop iteration and of the whole run -/

/-- The skip test succeeds exactly on a stored record matching both the
current hash and the current mtime. -/
theorem should_skip_iff (filepath h m : String) (state : StateMap) :
    should_skip_file filepath h m state = true ↔
      ∃ r, get_file_state filepath state = some r ∧
        r.content_hash = some h ∧ r.mtime = some m := by
  unfold should_skip_file
  cases hg : get_file_state filepath state with
  | none => simp
  | some r =>
    simp only [Bool.and_eq_true, beq_iff_eq]
    constructor
    · intro ⟨h1, h2⟩
      exact ⟨r, rfl, h1, h2⟩
    · intro ⟨r', hr', h1, h2⟩
      cases hr'
      exact ⟨h1, h2⟩

/-- The state component after one iteration: unchanged, or the recorded
(hash, mtime) of this file's path. -/
theorem processBody_state (col : List Doc) (state : StateMap) (j : Job) :
    (processBody col state j).2 = state ∨
      ∃ h m, j.skipInfo = .ok (h, m) ∧
        (processBody col state j).2 = update_file_state j.path h m state := by
  unfold processBody
  cases hb : j.build with
  | error e => exact Or.inl rfl
  | ok docs =>
    cases docs with
    | nil => exact Or.inl rfl
    | cons d ds =>
      by_cases hw : j.writeFails
      · simp only [hw, if_true]
        exact Or.inl trivial
      · simp only [hw, Bool.false_eq_true, if_false]
        cases hsk : j.skipInfo with
        | error e => exact Or.inl rfl
        | ok p =>
          obtain ⟨h, m⟩ := p
          exact Or.inr ⟨h, m, rfl, rfl⟩

theorem processFile_state (col : List Doc) (state : StateMap) (j : Job) :
    (processFile col state j).2 = state ∨
      ∃ h m, j.skipInfo = .ok (h, m) ∧
        (processFile col state j).2 = update_file_state j.path h m state := by
  rcases processBody_state col state j with h | ⟨h0, m0, hsk2, h⟩
  · refine Or.inl ?_
    unfold processFile
    cases hsk : j.skipInfo with
    | error e => exact h
    | ok p =>
      obtain ⟨hh, mm⟩ := p
      by_cases hs : should_skip_file j.path hh mm state
      · simp [hs]
      · simp only [hs, Bool.false_eq_true, if_false]
        exact h
  · unfold processFile
    rw [hsk2]
    by_cases hs : should_skip_file j.path h0 m0 state
    · simp only [hs, if_true]
      exact Or.inl trivial
    · simp only [hs, Bool.false_eq_true, if_false]
      exact Or.inr ⟨h0, m0, rfl, h⟩

/-- A failing iteration leaves the state map untouched. -/
theorem processBody_fails_state (col : List Doc) (state : StateMap) (j : Job)
    (hf : j.fails) : (processBody col state j).2 = state := by
  unfold processBody
  rcases hf with ⟨e, hb⟩ | ⟨d, ds, hb, hw⟩
  · simp [hb]
  · simp [hb, hw]

theorem processFile_fails_state (col : List Doc) (state : StateMap) (j : Job)
    (hf : j.fails) : (processFile col state j).2 = state := by
  have hbody := processBody_fails_state col state j hf
  unfold processFile
  cases hsk : j.skipInfo with
  | error e => exact hbody
  | ok p =>
    obtain ⟨h, m⟩ := p
    by_cases hs : should_skip_file j.path h m state
    · simp [hs]
    · simp only [hs, Bool.false_eq_true, if_false]
      exact hbody

/-- One iteration touches no other path's state entry. -/
theorem processFile_lookup_other (col : List Doc) (state : StateMap) (j : Job)
    (q : String) (hq : q ≠ j.path) :
    ((processFile col state j).2).lookup q = state.lookup q := by
  rcases processFile_state col state j with h | ⟨h0, m0, _, h⟩
  · rw [h]
  · rw [h]
    exact lookup_dictInsert_other j.path q _ hq state

/-- A fully successful iteration records exactly the file's current
(hash, mtime): through the update after the upsert when it processes, and
through the skip test's own match when it skips. -/
theorem processFile_success_lookup (col : List Doc) (state : StateMap) (j : Job)
    (h m : String) (d : Doc) (ds : List Doc)
    (hsk : j.skipInfo = .ok (h, m)) (hb : j.build = .ok (d :: ds))
    (hw : j.writeFails = false) :
    ((processFile col state j).2).lookup j.path = some ⟨some h, some m⟩ := by
  unfold processFile
  rw [hsk]
  by_cases hs : should_skip_file j.path h m state
  · simp only [hs, if_true]
    obtain ⟨r, hr, h1, h2⟩ := (should_skip_iff j.path h m state).mp hs
    obtain ⟨rc, rm⟩ := r
    cases h1
    cases h2
    exact hr
  · simp only [hs, Bool.false_eq_true, if_false]
    unfold processBody
    rw [hb, hw]
    simp only [Bool.false_eq_true, if_false, hsk]
    exact lookup_dictInsert_self j.path _ state

/-- Later iterations never touch a path outside their own file list. -/
theorem ingest_lookup_not_mem (q : String) :
    ∀ (jobs : List Job) (col : List Doc) (state : StateMap),
      q ∉ jobs.map Job.path →
      ((ingest_folder jobs col state).2).lookup q = state.lookup q := by
  intro jobs
  induction jobs with
  | nil => intro col state _; rfl
  | cons k rest ih =>
    intro col state hq
    simp only [List.map_cons, List.mem_cons, not_or] at hq
    have hstep : ingest_folder (k :: rest) col state =
        ingest_folder rest (processFile col state k).1 (processFile col state k).2 := rfl
    rw [hstep, ih _ _ hq.2, processFile_lookup_other col state k q hq.1]

/-- Error isolation and state recording over a whole run (paths distinct, as
the sorted deduplicated discovery guarantees): a failing file's entry is the
run-initial one, a fully successful file's entry is its current
(hash, mtime). -/
theorem ingest_lookup_main :
    ∀ (jobs : List Job) (col : List Doc) (state : StateMap) (j : Job),
      (jobs.map Job.path).Nodup → j ∈ jobs →
      (j.fails →
        ((ingest_folder jobs col state).2).lookup j.path = state.lookup j.path) ∧
      (∀ h m d ds, j.skipInfo = .ok (h, m) → j.build = .ok (d :: ds) →
        j.writeFails = false →
        ((ingest_folder jobs col state).2).lookup j.path = some ⟨some h, some m⟩) := by
  intro jobs
  induction jobs with
  | nil => intro col state j _ hj; simp at hj
  | cons k rest ih =>
    intro col state j hnd hj
    simp only [List.map_cons, List.nodup_cons] at hnd
    have hstep : ingest_folder (k :: rest) col state =
        ingest_folder rest (processFile col state k).1 (processFile col state k).2 := rfl
    rcases List.mem_cons.mp hj with hjk | hjr
    · subst hjk
      constructor
      · intro hf
        rw [hstep, ingest_lookup_not_mem _ _ _ _ hnd.1,
          processFile_fails_state col state j hf]
      · intro h m d ds hsk hb hw
        rw [hstep, ingest_lookup_not_mem _ _ _ _ hnd.1,
          processFile_success_lookup col state j h m d ds hsk hb hw]
    · have hpath : j.path ≠ k.path := by
        intro he
        exact hnd.1 (he ▸ List.mem_map_of_mem Job.path hjr)
      have := ih (processFile col state k).1 (processFile col state k).2 j hnd.2 hjr
      constructor
      · intro hf
        rw [hstep, (this.1 hf), processFile_lookup_other col state k j.path hpath]
      · intro h m d ds hsk hb hw
        rw [hstep, this.2 h m d ds hsk hb hw]

/-! ## Chunk counting over whitespace-free text -/

theorem slidingChunks_length_of_no_space (text : List Char) (S O : Nat)
    (hSO : O < S) (hws : ∀ c ∈ text, isPySpace c = false) :
    ∀ fuel start, start < text.length → text.length - start ≤ fuel →
      (slidingChunks text S (S - O) (fun w => w) fuel start).length =
        max 1 ((text.length - start - O + (S - O) - 1) / (S - O)) := by
  intro fuel
  induction fuel with
  | zero => intro start h1 h2; omega
  | succ n ih =>
    intro start h1 h2
    have hstep : 0 < S - O := by omega
    have hwin : pyStrip ((text.drop start).take S) = (text.drop start).take S := by
      apply pyStrip_of_no_space
      intro c hc
      exact hws c (List.drop_subset start text (List.take_subset _ _ hc))
    have hne : (((text.drop start).take S).isEmpty) = false := by
      cases hdt : text.drop start with
      | nil =>
        have := congrArg List.length hdt
        simp only [List.length_drop, List.length_nil] at this
        omega
      | cons a t =>
        cases S with
        | zero => omega
        | succ s => simp [hdt]
    simp only [slidingChunks, h1, if_true, hwin, hne, Bool.false_eq_true, if_false]
    set L := text.length with hL
    set step := S - O with hstepdef
    by_cases hend : L ≤ start + S
    · simp only [hend, if_true, List.length_singleton]
      have ha : L - start - O ≤ step := by omega
      have hlt : L - start - O + step - 1 < 2 * step := by omega
      have hdiv : (L - start - O + step - 1) / step < 2 :=
        (Nat.div_lt_iff_lt_mul hstep).mpr (by omega)
      omega
    · simp only [hend, if_false, List.length_cons, List.length_append,
        List.length_singleton]
      have hstart' : start + step < L := by omega
      have hrec := ih (start + step) (by omega) (by omega)
      rw [hrec]
      have ha : step < L - start - O := by omega
      have e1 : L - (start + step) - O + step - 1 = (L - start - O) - 1 := by omega
      rw [e1]
      have h1le : 1 ≤ ((L - start - O) - 1) / step :=
        (Nat.one_le_div_iff hstep).mpr (by omega)
      have e2 : L - start - O + step - 1 = ((L - start - O) - 1) + step := by omega
      rw [e2, Nat.add_div_right _ hstep]
      simp only [List.length_nil]
      omega

theorem chunk_text_chars_length_of_no_space (text : List Char) (S O : Nat)
    (hSO : O < S) (hws : ∀ c ∈ text, isPySpace c = false) (hne : text ≠ []) :
    (chunk_text_chars text S O).length =
      max 1 ((text.length - O + (S - O) - 1) / (S - O)) := by
  have hlen : 0 < text.length := List.length_pos.mpr hne
  have hmax : max 1 (S - O) = S - O := by omega
  unfold chunk_text_chars
  rw [if_neg (by simpa using hne), hmax]
  simpa using slidingChunks_length_of_no_space text S O hSO hws text.length 0
    hlen (by omega)

/-! ## Retry accounting for `embed_texts_openai` -/

/-- One unfolding of the retry loop on a rate-limited attempt. -/
theorem embedAttempts_rateLimit (prov : Nat → EmbedCall) (base : Rat)
    (rem attempt : Nat) (m : String) (hp : prov attempt = .rateLimit m) :
    embedAttempts prov base (rem + 1) attempt =
      if rem = 0 then ⟨.error (.rateLimit m), [], 1⟩
      else
        ⟨(embedAttempts prov base rem (attempt + 1)).outcome,
         base * 2 ^ attempt :: (embedAttempts prov base rem (attempt + 1)).delays,
         (embedAttempts prov base rem (attempt + 1)).calls + 1⟩ := by
  have hdef : embedAttempts prov base (rem + 1) attempt =
      match prov attempt with
      | .ok v => ⟨.ok v, [], 1⟩
      | .rateLimit m' =>
        if rem = 0 then ⟨.error (.rateLimit m'), [], 1⟩
        else
          let r := embedAttempts prov base rem (attempt + 1)
          ⟨r.outcome, base * 2 ^ attempt :: r.delays, r.calls + 1⟩
      | .apiError m' =>
        if rem = 0 then ⟨.error (.apiError m'), [], 1⟩
        else
          let r := embedAttempts prov base rem (attempt + 1)
          ⟨r.outcome, base * 2 ^ attempt :: r.delays, r.calls + 1⟩
      | .other m' => ⟨.error (.other m'), [], 1⟩ := rfl
  rw [hdef, hp]

/-- When every attempt hits a rate limit, the loop makes exactly
`max_retries` calls, sleeps `base * 2^attempt` after each non-final one, and
re-raises the final error. -/
theorem embedAttempts_all_rateLimit (prov : Nat → EmbedCall) (base : Rat)
    (ms : Nat → String) :
    ∀ rem attempt, 1 ≤ rem →
      (∀ i, attempt ≤ i → i < attempt + rem → prov i = .rateLimit (ms i)) →
      embedAttempts prov base rem attempt =
        ⟨.error (.rateLimit (ms (attempt + rem - 1))),
         (List.range (rem - 1)).map (fun k => base * 2 ^ (attempt + k)), rem⟩ := by
  intro rem
  induction rem with
  | zero => intro attempt h; omega
  | succ r ih =>
    intro attempt _ hprov
    have hp : prov attempt = .rateLimit (ms attempt) :=
      hprov attempt le_rfl (by omega)
    rw [embedAttempts_rateLimit prov base r attempt (ms attempt) hp]
    cases r with
    | zero => simp
    | succ r' =>
      have hrec := ih (attempt + 1) (by omega)
        (fun i hi₁ hi₂ => hprov i (by omega) (by omega))
      rw [if_neg (Nat.succ_ne_zero r'), hrec]
      simp only [EmbedResult.mk.injEq]
      refine ⟨?_, ?_, trivial⟩
      · rw [show attempt + 1 + (r' + 1) - 1 = attempt + (r' + 1 + 1) - 1 from by omega]
      · rw [show r' + 1 - 1 = r' from rfl, show r' + 1 + 1 - 1 = r' + 1 from rfl,
          List.range_succ_eq_map, List.map_cons, List.map_map]
        refine congrArg₂ _ (by norm_num) ?_
        apply List.map_congr_left
        intro k _
        simp only [Function.comp_apply]
        rw [show attempt + 1 + k = attempt + k.succ from by omega]

/-! ## Digest shape and preimage injectivity for `compute_stable_id` -/

theorem st8ToList_length (t : St8) : (st8ToList t).length = 8 := by
  obtain ⟨a, b, c, d, e, f, g, h⟩ := t
  rfl

theorem wordHexChars_length (w : Nat) : (wordHexChars w).length = 8 := rfl

theorem hexDigit_mem (n : Nat) : hexDigit n ∈ hexChars := by
  have h16 : n % 16 < 16 := Nat.mod_lt _ (by norm_num)
  have hall : ∀ m : Fin 16, hexChars.getD m.val '0' ∈ hexChars := by decide
  exact hall ⟨n % 16, h16⟩

theorem mem_wordHexChars {c : Char} {w : Nat} (hc : c ∈ wordHexChars w) :
    c ∈ hexChars := by
  simp only [wordHexChars, List.mem_cons, List.not_mem_nil, or_false] at hc
  rcases hc with h | h | h | h | h | h | h | h <;> exact h ▸ hexDigit_mem _

theorem flatMap_length_eight (f : Nat → List Char) (hf : ∀ w, (f w).length = 8) :
    ∀ l : List Nat, (l.flatMap f).length = 8 * l.length := by
  intro l
  induction l with
  | nil => rfl
  | cons a t ih =>
    simp only [List.flatMap_cons, List.length_append, hf, ih, List.length_cons]
    ring

theorem sha256Words_length (msg : List Nat) : (sha256Words msg).length = 8 := by
  unfold sha256Words
  exact st8ToList_length _

theorem sha256_text_length (s : String) : (sha256_text s).length = 64 := by
  show ((sha256Words (utf8Bytes s)).flatMap wordHexChars).length = 64
  rw [flatMap_length_eight wordHexChars wordHexChars_length, sha256Words_length]

theorem sha256_text_chars {s : String} : ∀ c ∈ (sha256_text s).data, c ∈ hexChars := by
  intro c hc
  have hc' : c ∈ (sha256Words (utf8Bytes s)).flatMap wordHexChars := hc
  rcases List.mem_flatMap.mp hc' with ⟨w, _, hcw⟩
  exact mem_wordHexChars hcw

/-- The bit strings of length 257 written over the letters a/b: more of them
than there are 64-character hex digests. -/
def abEncode (f : Fin 257 → Bool) : String :=
  ⟨(List.finRange 257).map (fun i => if f i then 'a' else 'b')⟩

theorem abEncodeGen_inj {n : Nat} {f g : Fin n → Bool}
    (hdata : (List.finRange n).map (fun i => if f i then 'a' else 'b') =
      (List.finRange n).map (fun i => if g i then 'a' else 'b')) : f = g := by
  funext i
  have hi := List.map_inj_left.mp hdata i (List.mem_finRange i)
  by_cases hf : f i <;> by_cases hg : g i
  · rw [hf, hg]
  · rw [if_pos hf, if_neg hg] at hi
    exact absurd hi (by decide)
  · rw [if_neg hf, if_pos hg] at hi
    exact absurd hi (by decide)
  · rw [Bool.not_eq_true] at hf hg
    rw [hf, hg]

set_option maxRecDepth 8000 in
theorem abEncode_inj {f g : Fin 257 → Bool} (h : abEncode f = abEncode g) :
    f = g :=
  abEncodeGen_inj (congrArg String.data h)

/-- The index of a hex character, inverse to `hexChars.getD` on hex digits. -/
def hexIdx (c : Char) : Fin 16 := ⟨hexChars.indexOf c % 16, Nat.mod_lt _ (by norm_num)⟩

set_option maxRecDepth 4000 in
theorem hexIdx_roundtrip : ∀ c ∈ hexChars, hexChars.getD (hexIdx c).val '0' = c := by
  intro c hc
  fin_cases hc <;> decide

theorem hexIdx_inj {a b : Char} (ha : a ∈ hexChars) (hb : b ∈ hexChars)
    (h : hexIdx a = hexIdx b) : a = b := by
  have := hexIdx_roundtrip a ha
  rw [h, hexIdx_roundtrip b hb] at this
  exact this.symm

/-- Read a digest back as its sixteen-valued character sequence. -/
def digestFun (s : String) : Fin 64 → Fin 16 := fun i => hexIdx (s.data.getD i.val '0')

theorem digest_ext {s t : String} (hs64 : s.length = 64) (ht64 : t.length = 64)
    (hsh : ∀ c ∈ s.data, c ∈ hexChars) (hth : ∀ c ∈ t.data, c ∈ hexChars)
    (h : digestFun s = digestFun t) : s = t := by
  apply String.ext
  apply List.ext_getElem
  · exact hs64.trans ht64.symm
  · intro i h1 h2
    have hi64 : i < 64 := by
      have : s.data.length = 64 := hs64
      omega
    have hfi := congrFun h ⟨i, hi64⟩
    have hgs : s.data.getD i '0' = s.data.get ⟨i, h1⟩ := by
      simp [List.getD_eq_getElem?_getD, List.getElem?_eq_getElem h1]
    have hgt : t.data.getD i '0' = t.data.get ⟨i, h2⟩ := by
      simp [List.getD_eq_getElem?_getD, List.getElem?_eq_getElem h2]
    have hmem_s : s.data.get ⟨i, h1⟩ ∈ hexChars := hsh _ (s.data.get_mem i h1)
    have hmem_t : t.data.get ⟨i, h2⟩ ∈ hexChars := hth _ (t.data.get_mem i h2)
    have : hexIdx (s.data.get ⟨i, h1⟩) = hexIdx (t.data.get ⟨i, h2⟩) := by
      simpa only [digestFun, hgs, hgt] using hfi
    simpa using hexIdx_inj hmem_s hmem_t this

theorem stableCombined_inj_source {s s' c h : String}
    (he : stableCombined s c h = stableCombined s' c h) : s = s' := by
  unfold stableCombined at he
  have hd := congrArg String.data he
  simp only [String.data_append, List.append_assoc] at hd
  exact String.ext (List.append_cancel_right hd)

theorem stableCombined_inj_chunk {s c c' h : String}
    (he : stableCombined s c h = stableCombined s c' h) : c = c' := by
  unfold stableCombined at he
  have hd := congrArg String.data he
  simp only [String.data_append, List.append_assoc] at hd
  have h1 := List.append_cancel_left hd
  have h2 := List.append_cancel_left h1
  rw [show ("::" : String).data ++ h.data =
    (("::" : String).data ++ h.data) from rfl] at h2
  exact String.ext (List.append_cancel_right (by
    simpa only [List.append_assoc] using h2))

theorem stableCombined_inj_hash {s c h h' : String}
    (he : stableCombined s c h = stableCombined s c h') : h = h' := by
  unfold stableCombined at he
  have hd := congrArg String.data he
  simp only [String.data_append, List.append_assoc] at hd
  have h1 := List.append_cancel_left hd
  have h2 := List.append_cancel_left h1
  have h3 := List.append_cancel_left h2
  exact String.ext (List.append_cancel_left h3)

/-- One unfolding of the retry loop on a successful attempt. -/
theorem embedAttempts_ok (prov : Nat → EmbedCall) (base : Rat)
    (rem attempt : Nat) (v : List (List Rat)) (hp : prov attempt = .ok v) :
    embedAttempts prov base (rem + 1) attempt = ⟨.ok v, [], 1⟩ := by
  have hdef : embedAttempts prov base (rem + 1) attempt =
      match prov attempt with
      | .ok v' => ⟨.ok v', [], 1⟩
      | .rateLimit m' =>
        if rem = 0 then ⟨.error (.rateLimit m'), [], 1⟩
        else
          let r := embedAttempts prov base rem (attempt + 1)
          ⟨r.outcome, base * 2 ^ attempt :: r.delays, r.calls + 1⟩
      | .apiError m' =>
        if rem = 0 then ⟨.error (.apiError m'), [], 1⟩
        else
          let r := embedAttempts prov base rem (attempt + 1)
          ⟨r.outcome, base * 2 ^ attempt :: r.delays, r.calls + 1⟩
      | .other m' => ⟨.error (.other m'), [], 1⟩ := rfl
  rw [hdef, hp]

/-- One unfolding of the retry loop on a non-transient error: re-raised at
once, no sleep, no further call. -/
theorem embedAttempts_other (prov : Nat → EmbedCall) (base : Rat)
    (rem attempt : Nat) (m : String) (hp : prov attempt = .other m) :
    embedAttempts prov base (rem + 1) attempt = ⟨.error (.other m), [], 1⟩ := by
  have hdef : embedAttempts prov base (rem + 1) attempt =
      match prov attempt with
      | .ok v' => ⟨.ok v', [], 1⟩
      | .rateLimit m' =>
        if rem = 0 then ⟨.error (.rateLimit m'), [], 1⟩
        else
          let r := embedAttempts prov base rem (attempt + 1)
          ⟨r.outcome, base * 2 ^ attempt :: r.delays, r.calls + 1⟩
      | .apiError m' =>
        if rem = 0 then ⟨.error (.apiError m'), [], 1⟩
        else
          let r := embedAttempts prov base rem (attempt + 1)
          ⟨r.outcome, base * 2 ^ attempt :: r.delays, r.calls + 1⟩
      | .other m' => ⟨.error (.other m'), [], 1⟩ := rfl
  rw [hdef, hp]

/-! ## Concrete sample data used by the witnesses -/

def sampleSource (i : String) : SourceInfo := ⟨"s", "data/" ++ i, "txt", "M"⟩

def sampleMeta : DocMeta := ⟨"t", "chunk_0", ["document"], "en"⟩

/-- A stored document of source `"s"` with the given id. -/
def sampleDoc (i : String) : Doc :=
  ⟨i, "s::chunk_" ++ i, sampleSource i, "text", sampleMeta, [], "mdl", 1536, "T", "T"⟩

/-- A job that builds one new chunk document for source `"s"`. -/
def sampleJobOk : Job :=
  ⟨"data/s", .ok ("H", "M"), .ok [sampleDoc "9"], false, fun c => c⟩

/-- A job whose build step raises. -/
def sampleJobFail : Job :=
  ⟨"data/f", .ok ("H2", "M2"), .error "boom", false, fun c => c⟩

/-- A job that builds documents for source `"s"` at another path. -/
def sampleJobOk2 : Job :=
  ⟨"data/g", .ok ("H3", "M3"), .ok [sampleDoc "7"], false, fun c => c⟩

/-! ## The claims -/

/-- C2: for every path, current hash, current mtime and state map,
`should_skip_file` returns `true` iff the state holds a record for that path
whose stored `content_hash` equals the current hash and whose stored `mtime`
equals the current mtime; in every other case (no record, hash differs,
mtime differs, or both) it returns `false`. -/
theorem claim_C2 (filepath current_hash current_mtime : String) (state : StateMap) :
    should_skip_file filepath current_hash current_mtime state = true ↔
      ∃ r, get_file_state filepath state = some r ∧
        r.content_hash = some current_hash ∧ r.mtime = some current_mtime :=
  should_skip_iff filepath current_hash current_mtime state

/-- C8: when the state file is absent, unreadable or malformed, `load_state`
returns the empty map — it is a total function, so no such outcome raises —
and on the empty map every file is processed (`should_skip_file` is always
`false`). -/
theorem claim_C8 :
    load_state .missing = ([] : StateMap) ∧
    load_state .unreadable = ([] : StateMap) ∧
    load_state .malformed = ([] : StateMap) ∧
    (∀ filepath h m, should_skip_file filepath h m (load_state .missing) = false) :=
  ⟨rfl, rfl, rfl, fun _ _ _ => rfl⟩

/-- C10: a file whose chunk list is empty yields no documents
(`build_docs_for_file` returns `[]`), and on an empty document list the
loop iteration performs neither the delete-by-source nor the upsert nor the
state update: store and state come back unchanged. -/
theorem claim_C10 :
    (∀ filepath file_type mtime title_meta embed_model embeddings created_at,
      build_docs_for_file filepath file_type mtime title_meta embed_model []
        embeddings created_at = []) ∧
    (∀ (col : List Doc) (state : StateMap) (j : Job), j.build = .ok [] →
      processFile col state j = (col, state)) := by
  constructor
  · intro filepath file_type mtime title_meta embed_model embeddings created_at
    rfl
  · intro col state j hb
    have hbody : processBody col state j = (col, state) := by
      unfold processBody
      rw [hb]
    unfold processFile
    cases hsk : j.skipInfo with
    | error e => exact hbody
    | ok p =>
      obtain ⟨h, m⟩ := p
      by_cases hs : should_skip_file j.path h m state
      · simp [hs]
      · simp only [hs, Bool.false_eq_true, if_false]
        exact hbody

theorem claim_C10_witness :
    build_docs_for_file "data/e.txt" "txt" "M" none "mdl" [] [] "T" = [] ∧
      processFile [sampleDoc "1"] [] ⟨"data/e.txt", .ok ("H", "M"), .ok [], false,
        fun c => c⟩ = ([sampleDoc "1"], []) :=
  ⟨claim_C10.1 "data/e.txt" "txt" "M" none "mdl" [] "T",
   claim_C10.2 [sampleDoc "1"] [] _ rfl⟩

/-- C7: for every input and every parameter combination — `overlap ≥ size`
included — both chunkers' loops stop within `length` iterations: any fuel of
at least the input length gives the same finite chunk list, because the
stride is floored at 1 (`step = max(1, size - overlap)`). -/
theorem claim_C7 :
    (∀ (text : List Char) (S O fuel : Nat), text.length ≤ fuel →
      slidingChunks text S (max 1 (S - O)) (fun w => w) fuel 0 =
        chunk_text_chars text S O) ∧
    (∀ (toks : List Nat) (dec : List Nat → List Char) (S O fuel : Nat),
      toks.length ≤ fuel →
      slidingChunks toks S (max 1 (S - O)) (fun w => dec w) fuel 0 =
        chunk_text_tokens toks dec S O) := by
  constructor
  · intro text S O fuel hf
    unfold chunk_text_chars
    by_cases he : text.isEmpty
    · have hnil : text = [] := List.isEmpty_iff.mp he
      subst hnil
      cases fuel <;> simp [slidingChunks]
    · rw [if_neg (by simpa using he)]
      exact slidingChunks_fuel_stable text S (max 1 (S - O)) _
        (le_max_left 1 _) fuel text.length 0 (by omega) (by omega)
  · intro toks dec S O fuel hf
    unfold chunk_text_tokens
    by_cases he : toks.isEmpty
    · have hnil : toks = [] := List.isEmpty_iff.mp he
      subst hnil
      cases fuel <;> simp [slidingChunks]
    · rw [if_neg (by simpa using he)]
      exact slidingChunks_fuel_stable toks S (max 1 (S - O)) _
        (le_max_left 1 _) fuel toks.length 0 (by omega) (by omega)

theorem claim_C7_witness :
    slidingChunks "abcdef".data 3 (max 1 (3 - 5)) (fun w => w) 100 0 =
      chunk_text_chars "abcdef".data 3 5 ∧
    slidingChunks [10, 20] 1 (max 1 (1 - 4)) (fun w => (fun t => t.map
      (fun n => Char.ofNat (65 + n))) w) 7 0 =
      chunk_text_tokens [10, 20] (fun t => t.map (fun n => Char.ofNat (65 + n))) 1 4 :=
  ⟨claim_C7.1 "abcdef".data 3 5 100 (by decide),
   claim_C7.2 [10, 20] _ 1 4 7 (by decide)⟩

/-- C6: canonical serialization is key-order independent: two JSON values
that are structurally equal up to the order of object keys (keys distinct,
as in any Python dict) serialize to byte-identical text, hence to the same
content hash. -/
theorem claim_C6 (j₁ j₂ : Json) (hg : GoodKeys j₁) (hp : JsonPerm j₁ j₂) :
    stable_json_text j₁ = stable_json_text j₂ ∧
      sha256_text (stable_json_text j₁) = sha256_text (stable_json_text j₂) := by
  have hc := canon_eq_of_jsonPerm hp hg
  have hmain : stable_json_text j₁ = stable_json_text j₂ := by
    unfold stable_json_text
    rw [hc]
  exact ⟨hmain, congrArg _ hmain⟩

theorem claim_C6_witness :
    stable_json_text (Json.jobj [("b", Json.jnum 1), ("a", Json.jnum 2)]) =
      stable_json_text (Json.jobj [("a", Json.jnum 2), ("b", Json.jnum 1)]) := by
  have hg : GoodKeys (Json.jobj [("b", Json.jnum 1), ("a", Json.jnum 2)]) := by
    refine GoodKeys.jobj _ (by decide) ?_
    intro p hp
    rcases List.mem_cons.mp hp with h | h
    · exact h ▸ GoodKeys.jnum 1
    · rcases List.mem_cons.mp h with h' | h'
      · exact h' ▸ GoodKeys.jnum 2
      · simp at h'
  exact (claim_C6 _ _ hg
    (JsonPerm.objSwap ("b", Json.jnum 1) ("a", Json.jnum 2) [])).1

/-- C4: the retry policy of `embed_texts_openai`.  (1) A provider that
rate-limits twice and then succeeds is called exactly 3 times with sleeps
`base` and `2*base` and its result is returned; (2) a provider that
rate-limits on every attempt is called exactly `max_retries` times, sleeping
`base * 2^attempt` after each non-final attempt, and the final error
propagates; (3) a non-transient error propagates at once: one call, no
sleep. -/
theorem claim_C4 :
    (∀ (prov : Nat → EmbedCall) (base : Rat) (v : List (List Rat)) (m₀ m₁ : String),
      prov 0 = .rateLimit m₀ → prov 1 = .rateLimit m₁ → prov 2 = .ok v →
      embed_texts_openai prov 3 base = ⟨.ok v, [base, 2 * base], 3⟩) ∧
    (∀ (prov : Nat → EmbedCall) (base : Rat) (ms : Nat → String) (mr : Nat),
      1 ≤ mr → (∀ i, i < mr → prov i = .rateLimit (ms i)) →
      embed_texts_openai prov mr base =
        ⟨.error (.rateLimit (ms (mr - 1))),
         (List.range (mr - 1)).map (fun k => base * 2 ^ k), mr⟩) ∧
    (∀ (prov : Nat → EmbedCall) (base : Rat) (m : String) (mr : Nat),
      1 ≤ mr → prov 0 = .other m →
      embed_texts_openai prov mr base = ⟨.error (.other m), [], 1⟩) := by
  refine ⟨?_, ?_, ?_⟩
  · intro prov base v m₀ m₁ h0 h1 h2
    have ha2 : embedAttempts prov base (0 + 1) 2 = ⟨.ok v, [], 1⟩ :=
      embedAttempts_ok prov base 0 2 v h2
    have ha1 : embedAttempts prov base (1 + 1) 1 =
        ⟨.ok v, [base * 2 ^ 1], 2⟩ := by
      rw [embedAttempts_rateLimit prov base 1 1 m₁ h1, if_neg (by omega),
        show embedAttempts prov base 1 2 = embedAttempts prov base (0 + 1) 2 from rfl,
        ha2]
    have ha0 : embedAttempts prov base (2 + 1) 0 =
        ⟨.ok v, [base * 2 ^ 0, base * 2 ^ 1], 3⟩ := by
      rw [embedAttempts_rateLimit prov base 2 0 m₀ h0, if_neg (by omega),
        show embedAttempts prov base 2 1 = embedAttempts prov base (1 + 1) 1 from rfl,
        ha1]
    show embedAttempts prov base (2 + 1) 0 = _
    rw [ha0]
    simp only [EmbedResult.mk.injEq]
    refine ⟨trivial, ?_, trivial⟩
    rw [pow_zero, pow_one, mul_one, mul_comm]
  · intro prov base ms mr h1 hp
    unfold embed_texts_openai
    rw [embedAttempts_all_rateLimit prov base ms mr 0 h1
      (fun i hi₁ hi₂ => hp i (by omega))]
    simp only [Nat.zero_add]
  · intro prov base m mr h1 h0
    obtain ⟨k, rfl⟩ : ∃ k, mr = k + 1 := ⟨mr - 1, by omega⟩
    exact embedAttempts_other prov base k 0 m h0

/-- The providers of the C4 witness. -/
def provTwiceThenOk : Nat → EmbedCall :=
  fun i => if i = 0 then .rateLimit "r0" else if i = 1 then .rateLimit "r1"
    else .ok [[1]]

def provAlwaysLimited : Nat → EmbedCall := fun _ => .rateLimit "r"

def provMalformed : Nat → EmbedCall := fun _ => .other "bad"

theorem claim_C4_witness :
    embed_texts_openai provTwiceThenOk 3 1 = ⟨.ok [[1]], [1, 2 * 1], 3⟩ ∧
    embed_texts_openai provAlwaysLimited 3 1 =
      ⟨.error (.rateLimit "r"), (List.range 2).map (fun k => 1 * 2 ^ k), 3⟩ ∧
    embed_texts_openai provMalformed 2 1 = ⟨.error (.other "bad"), [], 1⟩ :=
  ⟨claim_C4.1 provTwiceThenOk 1 [[1]] "r0" "r1" rfl rfl rfl,
   claim_C4.2.1 provAlwaysLimited 1 (fun _ => "r") 3 (by omega) (fun _ _ => rfl),
   claim_C4.2.2 provMalformed 1 "bad" 2 (by omega) rfl⟩

/-- C3 fails as stated.  First, `.strip()` drops whitespace-only windows:
the single-space text (`L = 1`, `S = 2`, `O = 0`) yields 0 chunks while
`ceil((L-O)/(S-O)) = 1`.  Second, when `O ≥ L > 0` the loop still emits its
first window — `"ab"` with `S = 10`, `O = 5` yields 1 chunk — while the
formula's value `ceil((2-5)/5)` is `0`. -/
theorem claim_C3_counterexample :
    (chunk_text_chars " ".data 2 0).length = 0 ∧
      (1 - 0 + (2 - 0) - 1) / (2 - 0) = 1 ∧
      (chunk_text_chars "ab".data 10 5).length = 1 ∧
      (⌈((2 : ℚ) - 5) / (10 - 5)⌉ : Int) = 0 :=
  ⟨by decide, by norm_num, by decide, by norm_num⟩

/-- C3, amended: for every *whitespace-free* text of length `L`, window size
`S` and overlap `O < S`, the char chunker returns 0 chunks when `L = 0`,
`ceil((L-O)/(S-O))` chunks when `L > O` (the natural-number ceiling
`(L - O + (S-O) - 1) / (S-O)`), and 1 chunk when `0 < L ≤ O`. -/
theorem claim_C3 (text : List Char) (S O : Nat) (hSO : O < S)
    (hws : ∀ c ∈ text, isPySpace c = false) :
    (text.length = 0 → chunk_text_chars text S O = []) ∧
    (O < text.length →
      (chunk_text_chars text S O).length =
        (text.length - O + (S - O) - 1) / (S - O)) ∧
    (0 < text.length → text.length ≤ O →
      (chunk_text_chars text S O).length = 1) := by
  refine ⟨?_, ?_, ?_⟩
  · intro h0
    have hnil : text = [] := List.length_eq_zero.mp h0
    subst hnil
    rfl
  · intro hOL
    have hne : text ≠ [] := by
      intro h
      subst h
      simp at hOL
    rw [chunk_text_chars_length_of_no_space text S O hSO hws hne]
    have hstep : 0 < S - O := by omega
    have h1 : 1 ≤ (text.length - O + (S - O) - 1) / (S - O) :=
      (Nat.one_le_div_iff hstep).mpr (by omega)
    omega
  · intro hpos hLO
    have hne : text ≠ [] := by
      intro h
      subst h
      simp at hpos
    rw [chunk_text_chars_length_of_no_space text S O hSO hws hne]
    have hdiv : (text.length - O + (S - O) - 1) / (S - O) = 0 :=
      Nat.div_eq_of_lt (by omega)
    omega

theorem claim_C3_witness :
    (chunk_text_chars "abcdefghijklmnopqrstuvwxyz".data 10 3).length =
      (26 - 3 + (10 - 3) - 1) / (10 - 3) :=
  (claim_C3 "abcdefghijklmnopqrstuvwxyz".data 10 3 (by omega)
    (by decide)).2.1 (by decide)

/-- C5 fails as universally stated: "changing one input changes the digest"
asserts injectivity, per fixed chunk id and hash, of `source_id ↦ doc_id`;
a SHA-256 digest has 64 hex characters — `16^64 = 2^256` possible values —
while there are `2^257` distinct 257-character source ids over the letters
a/b alone, so by pigeonhole some two of them share a digest. -/
theorem claim_C5_counterexample :
    ¬ (∀ s s' c h : String, s ≠ s' →
        compute_stable_id s c h ≠ compute_stable_id s' c h) := by
  intro hinj
  have hF : Function.Injective
      (fun f : Fin 257 → Bool => digestFun (compute_stable_id (abEncode f) "c" "h")) := by
    intro f g hfg
    by_contra hne
    have henc : abEncode f ≠ abEncode g := fun he => hne (abEncode_inj he)
    exact hinj (abEncode f) (abEncode g) "c" "h" henc
      (digest_ext (sha256_text_length _) (sha256_text_length _)
        sha256_text_chars sha256_text_chars hfg)
  have hcard := Fintype.card_le_of_injective _ hF
  rw [Fintype.card_fun, Fintype.card_fun, Fintype.card_bool, Fintype.card_fin,
    Fintype.card_fin] at hcard
  norm_num at hcard

/-- C5, amended: `compute_stable_id` is deterministic, and changing any one
of the three inputs while fixing the other two always changes the hashed
`"{source_id}::{chunk_id}::{content_hash}"` preimage — so equal digests of
different inputs would require a SHA-256 collision — and at the spec's
scenario inputs a change of each input does change the digest (computed). -/
theorem claim_C5 :
    (∀ s₁ s₂ c₁ c₂ h₁ h₂ : String, s₁ = s₂ → c₁ = c₂ → h₁ = h₂ →
      compute_stable_id s₁ c₁ h₁ = compute_stable_id s₂ c₂ h₂) ∧
    (∀ s s' c h : String, s ≠ s' →
      stableCombined s c h ≠ stableCombined s' c h) ∧
    (∀ s c c' h : String, c ≠ c' →
      stableCombined s c h ≠ stableCombined s c' h) ∧
    (∀ s c h h' : String, h ≠ h' →
      stableCombined s c h ≠ stableCombined s c h') ∧
    (compute_stable_id "fileA" "fileA::chunk_0000" (sha256_text "x") =
      compute_stable_id "fileA" "fileA::chunk_0000" (sha256_text "x")) ∧
    (compute_stable_id "fileB" "fileA::chunk_0000" (sha256_text "x") ≠
      compute_stable_id "fileA" "fileA::chunk_0000" (sha256_text "x")) ∧
    (compute_stable_id "fileA" "fileA::chunk_0001" (sha256_text "x") ≠
      compute_stable_id "fileA" "fileA::chunk_0000" (sha256_text "x")) ∧
    (compute_stable_id "fileA" "fileA::chunk_0000" (sha256_text "y") ≠
      compute_stable_id "fileA" "fileA::chunk_0000" (sha256_text "x")) := by
  refine ⟨?_, ?_, ?_, ?_, rfl, ?_, ?_, ?_⟩
  · intro s₁ s₂ c₁ c₂ h₁ h₂ hs hc hh
    rw [hs, hc, hh]
  · intro s s' c h hne he
    exact hne (stableCombined_inj_source he)
  · intro s c c' h hne he
    exact hne (stableCombined_inj_chunk he)
  · intro s c h h' hne he
    exact hne (stableCombined_inj_hash he)
  · decide
  · decide
  · decide

theorem claim_C5_witness :
    compute_stable_id "a" "c" "h" = compute_stable_id "a" "c" "h" ∧
      stableCombined "a" "c" "h" ≠ stableCombined "b" "c" "h" ∧
      stableCombined "a" "c" "h" ≠ stableCombined "a" "d" "h" ∧
      stableCombined "a" "c" "h" ≠ stableCombined "a" "c" "i" :=
  ⟨claim_C5.1 "a" "a" "c" "c" "h" "h" rfl rfl rfl,
   claim_C5.2.1 "a" "b" "c" "h" (by decide),
   claim_C5.2.2.1 "a" "c" "d" "h" (by decide),
   claim_C5.2.2.2.1 "a" "c" "h" "i" (by decide)⟩

/-- C9: over a run with distinct file paths, (1) a file whose processing
raises — in build (normalize/chunk/embed) or in the store write — keeps its
state entry exactly as it was when the run started, so it stays eligible for
reprocessing, and the remaining files are still processed: (2) every file
whose own processing succeeds ends the run with its current (hash, mtime)
recorded, wherever it sits in the list. -/
theorem claim_C9 (jobs : List Job) (col : List Doc) (state : StateMap) (j : Job)
    (hnd : (jobs.map Job.path).Nodup) (hj : j ∈ jobs) :
    (j.fails →
      ((ingest_folder jobs col state).2).lookup j.path = state.lookup j.path) ∧
    (∀ h m d ds, j.skipInfo = .ok (h, m) → j.build = .ok (d :: ds) →
      j.writeFails = false →
      ((ingest_folder jobs col state).2).lookup j.path = some ⟨some h, some m⟩) :=
  ingest_lookup_main jobs col state j hnd hj

theorem claim_C9_witness :
    ((ingest_folder [sampleJobFail, sampleJobOk] []
        [("data/f", ⟨some "Hold", some "Mold"⟩)]).2).lookup "data/f" =
      ([("data/f", ⟨some "Hold", some "Mold"⟩)] : StateMap).lookup "data/f" ∧
    ((ingest_folder [sampleJobFail, sampleJobOk] []
        [("data/f", ⟨some "Hold", some "Mold"⟩)]).2).lookup "data/s" =
      some ⟨some "H", some "M"⟩ :=
  ⟨(claim_C9 [sampleJobFail, sampleJobOk] [] _ sampleJobFail (by decide)
      (List.mem_cons_self _ _)).1 (Or.inl ⟨"boom", rfl⟩),
   (claim_C9 [sampleJobFail, sampleJobOk] [] _ sampleJobOk (by decide)
      (List.mem_cons_of_mem _ (List.mem_cons_self _ _))).2 "H" "M"
      (sampleDoc "9") [] rfl rfl rfl⟩

/-- The store contents a fully successful iteration leaves behind:
delete-by-source first, then the bulk upsert of the new chunk set. -/
theorem processFile_success_store (col : List Doc) (state : StateMap) (j : Job)
    (h0 m0 : String) (d : Doc) (ds : List Doc)
    (hsk : j.skipInfo = .ok (h0, m0))
    (hnoskip : should_skip_file j.path h0 m0 state = false)
    (hb : j.build = .ok (d :: ds)) (hw : j.writeFails = false) :
    (processFile col state j).1 =
      upsert_chunks (delete_chunks_by_source col d.source.source_id).1 (d :: ds) := by
  unfold processFile processBody
  rw [hsk, hb, hw]
  simp [hnoskip]

/-- C1: re-ingesting a changed source that previously had `N` stored chunk
documents and now produces `M < N` chunks (same `source.source_id`, distinct
ids) first deletes every stored document of that source and then upserts the
`M` new ones, leaving exactly `M` stored documents for that source — no
orphans. -/
theorem claim_C1 (col : List Doc) (state : StateMap) (j : Job)
    (h0 m0 : String) (d : Doc) (ds : List Doc) (N M : Nat)
    (hsk : j.skipInfo = .ok (h0, m0))
    (hnoskip : should_skip_file j.path h0 m0 state = false)
    (hb : j.build = .ok (d :: ds))
    (hw : j.writeFails = false)
    (hsame : ∀ e ∈ d :: ds, e.source.source_id = d.source.source_id)
    (hids : ((d :: ds).map (fun e => e._id)).Nodup)
    (hN : col.countP (sidP d.source.source_id) = N)
    (hM : (d :: ds).length = M) (hMN : M < N) :
    ((processFile col state j).1).countP (sidP d.source.source_id) = M := by
  rw [processFile_success_store col state j h0 m0 d ds hsk hnoskip hb hw]
  rw [countP_upsert_chunks d.source.source_id (d :: ds)
    (delete_chunks_by_source col d.source.source_id).1
    (fun e he => by simp [sidP, hsame e he])
    hids
    (fun e he hse _ => not_mem_sid_delete col d.source.source_id e he hse)]
  rw [countP_delete]
  omega

theorem claim_C1_witness :
    ((processFile [sampleDoc "1", sampleDoc "2"] [] sampleJobOk).1).countP
      (sidP "s") = 1 :=
  claim_C1 [sampleDoc "1", sampleDoc "2"] [] sampleJobOk "H" "M"
    (sampleDoc "9") [] 2 1 rfl rfl rfl rfl
    (by
      intro e he
      rcases List.mem_cons.mp he with h | h
      · rw [h]
      · simp at h)
    (by decide) (by decide) rfl (by decide)

end Rag
